import Mathlib

/-!
Shallow embedding of the TIFF viewer core pipeline from
src/app/components/TiffViewerComponent.tsx: format validation
(validateTiff), bit-depth normalization (normalizeToUint8Enhanced and
normalizeToUint8), channel dispatch and RGBA assembly inside
loadAndProcessTiff, the download progress reports, and the
post-load continuation structure of the TiffViewer component.

Numeric conventions: JS numbers are modeled as rationals, byte and
sample arrays as lists of naturals, and Float32 sample arrays as lists
of `Option` rationals where `none` stands for a non-finite value
(NaN or an infinity), which is exactly the set that the code filters
with isFinite. All definitions are total functions, matching the fact
that the modeled code paths do not throw on any input.
-/

namespace TiffViewer

/-- JS Math.round on the values this code rounds: round half toward
positive infinity, that is the floor of q + 1/2. -/
def jsRound (q : ℚ) : ℤ := ⌊q + 1 / 2⌋

/-- JS Math.max(0, Math.min(255, q)), the clamp applied before rounding
in the histogram stretch (lines 551 and 595 of the source). -/
def clamp255 (q : ℚ) : ℚ := max 0 (min 255 q)

/-- JS `1 << b`: the shift count of the << operator is reduced mod 32.
Used in the fallback of the 16-bit branch (line 556) and in the plain
normalizer (line 630). -/
def jsShl1 (b : ℕ) : ℕ := 2 ^ (b % 32)

/-- The typed sample array returned by image.readRasters: Uint8Array
for 1-bit and 8-bit data, Uint16Array for 16-bit data, Float32Array
for 32-bit float data. A Float32 entry of `none` is a non-finite value. -/
inductive SampleData where
  | u8 (xs : List ℕ)
  | u16 (xs : List ℕ)
  | f32 (xs : List (Option ℚ))
deriving DecidableEq

/-- Length of the underlying sample array. -/
def SampleData.len : SampleData → ℕ
  | .u8 xs => xs.length
  | .u16 xs => xs.length
  | .f32 xs => xs.length

/-- Well-formedness of a decoded raster as GeoTIFF delivers it:
Uint8Array entries are bytes and come from 1-bit or 8-bit images,
Uint16Array entries are 16-bit words of a 16-bit image, Float32Array
data belongs to a 32-bit float image. -/
def SampleData.wf : SampleData → ℕ → Prop
  | .u8 xs, bits => (bits = 1 ∨ bits = 8) ∧ ∀ v ∈ xs, v < 256
  | .u16 xs, bits => bits = 16 ∧ ∀ v ∈ xs, v < 65536
  | .f32 _, bits => bits = 32

/-- One step of the minimum-tracking loop of the Float32 branch
(lines 572-578): a non-finite sample is skipped, a finite one lowers
the running minimum; `none` as accumulator is the initial
POSITIVE_INFINITY. -/
def f32MinStep (acc : Option ℚ) (x : Option ℚ) : Option ℚ :=
  match x with
  | none => acc
  | some v =>
    match acc with
    | none => some v
    | some m => some (min m v)

/-- One step of the maximum-tracking loop of the Float32 branch. -/
def f32MaxStep (acc : Option ℚ) (x : Option ℚ) : Option ℚ :=
  match x with
  | none => acc
  | some v =>
    match acc with
    | none => some v
    | some m => some (max m v)

/-- The minimum over the finite samples of a Float32 array, `none` when
no finite sample exists (the loop of lines 569-578). -/
def f32Min (xs : List (Option ℚ)) : Option ℚ := xs.foldl f32MinStep none

/-- The maximum over the finite samples of a Float32 array. -/
def f32Max (xs : List (Option ℚ)) : Option ℚ := xs.foldl f32MaxStep none

/-- The Uint8Array branch of normalizeToUint8Enhanced (lines 509-524):
1-bit data is binarized per sample, anything else is a direct copy. -/
def normalizeU8 (xs : List ℕ) (bitsPerSample : ℕ) : List ℤ :=
  if bitsPerSample = 1 then
    xs.map (fun v => if 0 < v then (255 : ℤ) else 0)
  else
    xs.map (Nat.cast : ℕ → ℤ)

/-- The Uint16Array branch of normalizeToUint8Enhanced (lines 528-561):
min and max are found by a loop starting from data[0]; when the range
is positive each sample is stretched by round(clamp((v-min)/range*255))
and when the range is zero the array is filled with
round(min / ((1 << bits) - 1) * 255). An empty array yields an empty
result (the loops and fill do nothing). -/
def normalizeU16 (xs : List ℕ) (bitsPerSample : ℕ) : List ℤ :=
  match xs with
  | [] => []
  | x :: rest =>
    let minValue := rest.foldl min x
    let maxValue := rest.foldl max x
    if minValue < maxValue then
      (x :: rest).map (fun (v : ℕ) =>
        jsRound (clamp255 (((v : ℚ) - (minValue : ℚ)) /
          ((maxValue : ℚ) - (minValue : ℚ)) * 255)))
    else
      List.replicate (x :: rest).length
        (jsRound ((minValue : ℚ) / ((jsShl1 bitsPerSample : ℚ) - 1) * 255))

/-- The Float32Array branch of normalizeToUint8Enhanced (lines 562-612):
min and max over the finite samples; if none exists the result is all
zeros; with a positive range each finite sample is stretched and each
non-finite one maps to 0; with a zero range the array is filled with
round(255) when the absolute minimum exceeds 1 and round(abs(min)*255)
otherwise. -/
def normalizeF32 (xs : List (Option ℚ)) : List ℤ :=
  match f32Min xs, f32Max xs with
  | some minValue, some maxValue =>
    if minValue < maxValue then
      xs.map (fun y =>
        match y with
        | some v => jsRound (clamp255 ((v - minValue) / (maxValue - minValue) * 255))
        | none => 0)
    else
      List.replicate xs.length
        (jsRound (if 1 < |minValue| then 255 else |minValue| * 255))
  | _, _ => List.replicate xs.length 0

/-- normalizeToUint8Enhanced (lines 505-615), dispatching on the runtime
type of the sample array exactly as the instanceof tests do. -/
def normalizeToUint8Enhanced : SampleData → ℕ → List ℤ
  | .u8 xs, bits => normalizeU8 xs bits
  | .u16 xs, bits => normalizeU16 xs bits
  | .f32 xs, _ => normalizeF32 xs

/-- normalizeToUint8 (lines 618-642), the plain fixed-range normalizer:
Uint8 data is returned as is, Uint16 samples map to
floor(v / ((1 << bits) - 1) * 255), Float32 samples are clamped to
[0, 1] and scaled (a non-finite sample yields NaN, which the Uint8Array
store turns into 0). -/
def normalizeToUint8 : SampleData → ℕ → List ℤ
  | .u8 xs, _ => xs.map (Nat.cast : ℕ → ℤ)
  | .u16 xs, bits =>
    xs.map (fun (v : ℕ) => ⌊(v : ℚ) / ((jsShl1 bits : ℚ) - 1) * 255⌋)
  | .f32 xs, _ =>
    xs.map (fun y =>
      match y with
      | some v => ⌊max 0 (min 1 v) * 255⌋
      | none => 0)

/-- The two pixel-assembly branches of loadAndProcessTiff: a 1-channel
image replicates the intensity into R, G, B (lines 409-416), a
multi-channel image reads three channels (lines 462-467). -/
inductive ChannelPath where
  | gray
  | rgb
deriving DecidableEq

/-- How many channels readRasters is asked for on each path: samples
[0] for grayscale, samples [0, 1, 2] for multi-band. -/
def channelsRead : ChannelPath → ℕ
  | .gray => 1
  | .rgb => 3

/-- The if/else chain on samplesPerPixel in loadAndProcessTiff
(lines 359, 417, 468-472): 1 sample per pixel is grayscale, 3 or more
are processed as RGB from the first three channels, anything else
throws the unsupported-layout error. -/
def selectChannelPath (samplesPerPixel : ℕ) : Except String ChannelPath :=
  if samplesPerPixel = 1 then .ok .gray
  else if 3 ≤ samplesPerPixel then .ok .rgb
  else .error ("Unsupported number of samples per pixel: " ++ toString samplesPerPixel)

/-- Whether a decode dispatch result is the thrown error. -/
def isErrorResult : Except String ChannelPath → Bool
  | .error _ => true
  | .ok _ => false

/-- Which normalizer each path applies: the grayscale branch always
calls normalizeToUint8Enhanced (line 404), the multi-band branch calls
it only for 16 bits and more and otherwise the plain normalizeToUint8
(lines 456-459). -/
def normalizeForPath (path : ChannelPath) (data : SampleData) (bits : ℕ) : List ℤ :=
  match path with
  | .gray => normalizeToUint8Enhanced data bits
  | .rgb =>
    if 16 ≤ bits then normalizeToUint8Enhanced data bits
    else normalizeToUint8 data bits

/-- One hex digit, lowercase, as JS toString(16) produces. -/
def hexDigit (n : ℕ) : Char :=
  if n < 10 then Char.ofNat (48 + n) else Char.ofNat (87 + n)

/-- A byte rendered as two lowercase hex digits, modeling
byte.toString(16).padStart(2, the zero character) for byte values
below 256 (getUint8 never returns anything larger). -/
def byteToHex (b : ℕ) : String :=
  String.mk [hexDigit (b / 16 % 16), hexDigit (b % 16)]

/-- validateTiff (lines 116-159). The buffer is the byte list; the
result is the pair (isValid, message). The byte-order marker test
compares the two-character string built from bytes 0 and 1 with the
markers II and MM, which for bytes is exactly the pair tests below
(73 is the code of I, 77 of M); getUint16(2, littleEndian) with
littleEndian set when the marker is II reads bytes 2 and 3 in the
matching order. The try/catch never fires on this path, so the
function is total. -/
def validateTiff (buffer : List ℕ) : Bool × String :=
  if buffer.length < 8 then
    (false, "File is too small to be a valid TIFF")
  else
    let byte1 := buffer.getD 0 0
    let byte2 := buffer.getD 1 0
    if (byte1 = 73 ∧ byte2 = 73) ∨ (byte1 = 77 ∧ byte2 = 77) then
      let magicNumber :=
        if byte1 = 73 then buffer.getD 2 0 + 256 * buffer.getD 3 0
        else 256 * buffer.getD 2 0 + buffer.getD 3 0
      if magicNumber = 42 then
        (true, "Valid TIFF file")
      else
        (false, "Invalid TIFF magic number: " ++ toString magicNumber ++ " (expected 42)")
    else
      (false, "Invalid TIFF byte order marker: 0x" ++ byteToHex byte1 ++ byteToHex byte2)

/-- One RGBA pixel flattened into the pixel buffer. -/
def pack (p : ℤ × ℤ × ℤ) : List ℤ := [p.1, p.2.1, p.2.2, 255]

/-- The grayscale RGBA assembly loop (lines 409-416): every normalized
intensity is written to R, G and B of its pixel with alpha 255. -/
def assembleGray (ns : List ℤ) : List ℤ :=
  ns.flatMap (fun v => [v, v, v, 255])

/-- The RGB RGBA assembly loop (lines 462-467): normalized samples are
taken three at a time into R, G, B with alpha 255. The loop is modeled
for inputs whose length is a multiple of three, which the pipeline
guarantees (three channels of width * height samples each). -/
def assembleRGB : List ℤ → List ℤ
  | r :: g :: b :: rest => r :: g :: b :: 255 :: assembleRGB rest
  | _ => []

/-- The sample-to-RGBA stage of loadAndProcessTiff for each channel
path: normalization followed by assembly. -/
def processSamples (path : ChannelPath) (data : SampleData) (bits : ℕ) : List ℤ :=
  match path with
  | .gray => assembleGray (normalizeForPath .gray data bits)
  | .rgb => assembleRGB (normalizeForPath .rgb data bits)

/-- The percent value emitted inside the download loop after a chunk
arrives (lines 217-261), as a function of the declared total size and
the bytes downloaded so far. A declared size of 0 is falsy in JS, so
it takes the unknown-size branch, whose percent is the constant 20.
With a known size the percent is 10 + min(downloaded / total * 50, 50). -/
def downloadPercent (total : Option ℕ) (cum : ℕ) : ℚ :=
  match total with
  | some t =>
    if t = 0 then 20
    else 10 + min ((cum : ℚ) / (t : ℚ) * 50) 50
  | none => 20

/-- The ETA of a known-size download report (lines 222-251): the
speed-based estimate is surfaced only after more than 1024 bytes and
more than 500 ms, otherwise the static size-based estimate is shown.
The speed-based estimate is ceil((remaining/speed + total/10MiB*1000)/1000)
seconds, floored at 1. -/
def knownEta (t cum elapsed : ℕ) : ℕ :=
  let downloadSpeed : ℚ := (cum : ℚ) / (elapsed : ℚ)
  let remainingBytes : ℚ := (t : ℚ) - (cum : ℚ)
  let estimatedDownloadTime : ℚ := remainingBytes / downloadSpeed
  let processingTimeEstimate : ℚ := (t : ℚ) / (10 * 1024 * 1024) * 1000
  let estimatedSeconds : ℤ := ⌈(estimatedDownloadTime + processingTimeEstimate) / 1000⌉
  if 1024 < cum ∧ 500 < elapsed then (max 1 estimatedSeconds).toNat
  else (⌈(t : ℚ) / (1024 * 1024) + (t : ℚ) / (5 * 1024 * 1024)⌉).toNat

/-- The ETA of one download report: for an unknown (or zero, hence
falsy) total, the elapsed-time heuristic of lines 253-260, a 15 second
base estimate lowered by one second per elapsed second and floored at
3 seconds. -/
def downloadEta (total : Option ℕ) (cum elapsed : ℕ) : ℕ :=
  match total with
  | some t =>
    if t = 0 then max 3 (15 - elapsed / 1000)
    else knownEta t cum elapsed
  | none => max 3 (15 - elapsed / 1000)

/-- The (percent, etaSeconds) pairs reported by the download loop, one
per received chunk; each chunk is a pair (byte length, elapsed ms when
it was handled), and `cum` is the byte count already downloaded. -/
def downloadReports (total : Option ℕ) : ℕ → List (ℕ × ℕ) → List (ℚ × ℕ)
  | _, [] => []
  | cum, c :: rest =>
    (downloadPercent total (cum + c.1), downloadEta total (cum + c.1) c.2) ::
      downloadReports total (cum + c.1) rest

/-- The full sequence of percent values a successful load pushes to
the onProgress sink: 5 (line 171), 5 again with the initial estimate
(line 193 or 196), 10 (line 207), one report per chunk, then 60, 70,
75, 80, 85, 90, 95, 100 (lines 276-478). -/
def sinkPercents (total : Option ℕ) (chunks : List (ℕ × ℕ)) : List ℚ :=
  [5, 5, 10] ++ (downloadReports total 0 chunks).map Prod.fst ++
    [60, 70, 75, 80, 85, 90, 95, 100]

/-- The full sequence of values a successful load writes to the
loadingProgress state: 0 at effect start (line 665), 0 and 2 inside
initViewer (lines 674, 681), every sink value via the progress
callback (line 689), then 98 while preparing the viewer (line 720)
and 100 at the end (line 791). -/
def statePercents (total : Option ℕ) (chunks : List (ℕ × ℕ)) : List ℚ :=
  [0, 0, 2] ++ sinkPercents total chunks ++ [98, 100]

/-- The side effects on shared display state that the continuations of
a load can perform. -/
inductive UIAction where
  | setStage (s : String)
  | setProgress (p : ℚ)
  | setEta (e : ℕ)
  | createViewer
  | registerOnLoad
  | setIsLoading (b : Bool)
deriving DecidableEq

/-- The fallback estimate the progress callback derives from the
percent when the pipeline supplies no positive ETA (lines 695-713). -/
def fallbackEta (p : ℚ) : ℕ :=
  if 60 ≤ p ∧ p < 100 then max 1 (⌈(100 - p) / 15⌉).toNat
  else if p < 60 then max 2 (⌈(60 - p) / 10⌉).toNat
  else 1

/-- The progress callback continuation (lines 688-715). It receives
the mounted flag of its load but never consults it: the state
mutations run unconditionally. -/
def progressContinuation (isMounted : Bool) (p : ℚ) (stage : String)
    (est : Option ℕ) : List UIAction :=
  let _ := isMounted
  [.setProgress p, .setStage stage,
   .setEta (match est with
     | some e => if 0 < e then e else fallbackEta p
     | none => fallbackEta p)]

/-- The continuation of initViewer after loadAndProcessTiff resolves
(lines 719-794): stage and progress are set to the preparing state,
the viewer is created (and an open handler registered when onLoad was
supplied) only when the ref is attached and the load is still mounted,
then the success stage, progress 100 and the isLoading reset run
unconditionally. -/
def successContinuation (isMounted viewerAttached hasOnLoad : Bool) : List UIAction :=
  [.setStage "Preparing viewer...", .setProgress 98] ++
    (if viewerAttached && isMounted then
      [.createViewer] ++ (if hasOnLoad then [.registerOnLoad] else [])
    else []) ++
    [.setStage "Image loaded successfully!", .setProgress 100, .setIsLoading false]

section FoldLemmas

variable {α : Type} [LinearOrder α]

lemma foldl_min_le_init : ∀ (xs : List α) (x : α), xs.foldl min x ≤ x := by
  intro xs
  induction xs with
  | nil => intro x; exact le_refl x
  | cons y ys ih =>
    intro x
    calc (y :: ys).foldl min x = ys.foldl min (min x y) := rfl
    _ ≤ min x y := ih (min x y)
    _ ≤ x := min_le_left x y

lemma foldl_min_le_mem : ∀ (xs : List α) (x v : α), v ∈ xs → xs.foldl min x ≤ v := by
  intro xs
  induction xs with
  | nil => intro x v hv; simp at hv
  | cons y ys ih =>
    intro x v hv
    rcases List.mem_cons.mp hv with h | h
    · subst h
      calc ys.foldl min (min x v) ≤ min x v := foldl_min_le_init ys (min x v)
      _ ≤ v := min_le_right x v
    · exact ih (min x y) v h

lemma foldl_min_mem : ∀ (xs : List α) (x : α), xs.foldl min x ∈ x :: xs := by
  intro xs
  induction xs with
  | nil => intro x; simp
  | cons y ys ih =>
    intro x
    have h := ih (min x y)
    simp only [List.foldl_cons]
    rcases List.mem_cons.mp h with h1 | h1
    · rw [h1]
      rcases min_choice x y with h2 | h2 <;> rw [h2] <;> simp
    · exact List.mem_cons.mpr (Or.inr (List.mem_cons.mpr (Or.inr h1)))

lemma foldl_max_le_init : ∀ (xs : List α) (x : α), x ≤ xs.foldl max x := by
  intro xs
  induction xs with
  | nil => intro x; exact le_refl x
  | cons y ys ih =>
    intro x
    calc x ≤ max x y := le_max_left x y
    _ ≤ ys.foldl max (max x y) := ih (max x y)
    _ = (y :: ys).foldl max x := rfl

lemma foldl_max_le_mem : ∀ (xs : List α) (x v : α), v ∈ xs → v ≤ xs.foldl max x := by
  intro xs
  induction xs with
  | nil => intro x v hv; simp at hv
  | cons y ys ih =>
    intro x v hv
    rcases List.mem_cons.mp hv with h | h
    · subst h
      calc v ≤ max x v := le_max_right x v
      _ ≤ ys.foldl max (max x v) := foldl_max_le_init ys (max x v)
    · exact ih (max x y) v h

lemma foldl_max_mem : ∀ (xs : List α) (x : α), xs.foldl max x ∈ x :: xs := by
  intro xs
  induction xs with
  | nil => intro x; simp
  | cons y ys ih =>
    intro x
    have h := ih (max x y)
    simp only [List.foldl_cons]
    rcases List.mem_cons.mp h with h1 | h1
    · rw [h1]
      rcases max_choice x y with h2 | h2 <;> rw [h2] <;> simp
    · exact List.mem_cons.mpr (Or.inr (List.mem_cons.mpr (Or.inr h1)))

end FoldLemmas

lemma f32Min_from (xs : List (Option ℚ)) (m : ℚ) :
    xs.foldl f32MinStep (some m) = some ((xs.filterMap id).foldl min m) := by
  induction xs generalizing m with
  | nil => rfl
  | cons x rest ih =>
    cases x with
    | none => simpa [f32MinStep] using ih m
    | some v => simpa [f32MinStep] using ih (min m v)

lemma f32Max_from (xs : List (Option ℚ)) (m : ℚ) :
    xs.foldl f32MaxStep (some m) = some ((xs.filterMap id).foldl max m) := by
  induction xs generalizing m with
  | nil => rfl
  | cons x rest ih =>
    cases x with
    | none => simpa [f32MaxStep] using ih m
    | some v => simpa [f32MaxStep] using ih (max m v)

lemma f32Min_eq (xs : List (Option ℚ)) :
    f32Min xs = match xs.filterMap id with
      | [] => none
      | v :: l => some (l.foldl min v) := by
  induction xs with
  | nil => rfl
  | cons x rest ih =>
    cases x with
    | none => simpa [f32Min, f32MinStep] using ih
    | some v => simp [f32Min, f32MinStep, f32Min_from rest v]

lemma f32Max_eq (xs : List (Option ℚ)) :
    f32Max xs = match xs.filterMap id with
      | [] => none
      | v :: l => some (l.foldl max v) := by
  induction xs with
  | nil => rfl
  | cons x rest ih =>
    cases x with
    | none => simpa [f32Max, f32MaxStep] using ih
    | some v => simp [f32Max, f32MaxStep, f32Max_from rest v]

lemma mem_filterMap_id {xs : List (Option ℚ)} {v : ℚ} :
    v ∈ xs.filterMap id ↔ some v ∈ xs := by
  simp [List.mem_filterMap]

/-- The loop of lines 569-578 finds exactly the smallest finite sample. -/
lemma f32Min_eq_some {ys : List (Option ℚ)} {mn : ℚ}
    (hmem : some mn ∈ ys) (hle : ∀ v : ℚ, some v ∈ ys → mn ≤ v) :
    f32Min ys = some mn := by
  rcases hfm : ys.filterMap id with _ | ⟨v, l⟩
  · exfalso
    have : mn ∈ ys.filterMap id := mem_filterMap_id.mpr hmem
    rw [hfm] at this
    simp at this
  · rw [f32Min_eq, hfm]
    have hmnmem : mn ∈ v :: l := by
      rw [← hfm]
      exact mem_filterMap_id.mpr hmem
    have hresmem : l.foldl min v ∈ v :: l := foldl_min_mem l v
    have h1 : l.foldl min v ≤ mn := by
      rcases List.mem_cons.mp hmnmem with h | h
      · subst h; exact foldl_min_le_init l mn
      · exact foldl_min_le_mem l v mn h
    have h2 : mn ≤ l.foldl min v := by
      apply hle
      rw [← mem_filterMap_id, hfm]
      exact hresmem
    simp [le_antisymm h1 h2]

/-- The loop of lines 569-578 finds exactly the largest finite sample. -/
lemma f32Max_eq_some {ys : List (Option ℚ)} {mx : ℚ}
    (hmem : some mx ∈ ys) (hle : ∀ v : ℚ, some v ∈ ys → v ≤ mx) :
    f32Max ys = some mx := by
  rcases hfm : ys.filterMap id with _ | ⟨v, l⟩
  · exfalso
    have : mx ∈ ys.filterMap id := mem_filterMap_id.mpr hmem
    rw [hfm] at this
    simp at this
  · rw [f32Max_eq, hfm]
    have hmxmem : mx ∈ v :: l := by
      rw [← hfm]
      exact mem_filterMap_id.mpr hmem
    have hresmem : l.foldl max v ∈ v :: l := foldl_max_mem l v
    have h1 : mx ≤ l.foldl max v := by
      rcases List.mem_cons.mp hmxmem with h | h
      · subst h; exact foldl_max_le_init l mx
      · exact foldl_max_le_mem l v mx h
    have h2 : l.foldl max v ≤ mx := by
      apply hle
      rw [← mem_filterMap_id, hfm]
      exact hresmem
    simp [le_antisymm h2 h1]

lemma f32Min_none {zs : List (Option ℚ)} (h : ∀ z ∈ zs, z = none) :
    f32Min zs = none := by
  have hfm : zs.filterMap id = [] := by
    rw [List.eq_nil_iff_forall_not_mem]
    intro v hv
    have := mem_filterMap_id.mp hv
    have := h _ this
    simp at this
  rw [f32Min_eq, hfm]

lemma f32Max_none {zs : List (Option ℚ)} (h : ∀ z ∈ zs, z = none) :
    f32Max zs = none := by
  have hfm : zs.filterMap id = [] := by
    rw [List.eq_nil_iff_forall_not_mem]
    intro v hv
    have := mem_filterMap_id.mp hv
    have := h _ this
    simp at this
  rw [f32Max_eq, hfm]

/-- C2 counterexample: a reported samples-per-pixel of 5 lies outside
the set {1, 3, 4}, yet the decode dispatch does not fail: the branch
for three or more samples accepts it and processes the first three
channels, so no UnsupportedChannelLayout error is produced. -/
theorem c2_counterexample :
    ¬ ((5 : ℕ) = 1 ∨ (5 : ℕ) = 3 ∨ (5 : ℕ) = 4) ∧
      selectChannelPath 5 = Except.ok ChannelPath.rgb := by
  constructor
  · decide
  · rfl

/-- C2 amended: the decode step fails with the unsupported-layout
error exactly when the reported samples-per-pixel is 0 or 2; every
count of 3 or more (including 5 and above) is accepted and processed
as RGB from the first three channels. -/
theorem c2_unsupported_layout (samplesPerPixel : ℕ) :
    isErrorResult (selectChannelPath samplesPerPixel) = true ↔
      samplesPerPixel = 0 ∨ samplesPerPixel = 2 := by
  unfold selectChannelPath
  split_ifs with h1 h2 <;> simp [isErrorResult] <;> omega

/-- C3 counterexample: on the 3-channel path, 1-bit samples are not
binarized. With bitsPerChannel 1 the multi-band branch selects the
plain normalizer (1 < 16), which copies Uint8 data unchanged, so the
sample value 5 is displayed as 5, not 255. -/
theorem c3_counterexample :
    normalizeForPath ChannelPath.rgb (SampleData.u8 [0, 5, 0, 255, 0, 0]) 1 =
      [0, 5, 0, 255, 0, 0] ∧
    ¬ (∀ v ∈ normalizeForPath ChannelPath.rgb (SampleData.u8 [0, 5, 0, 255, 0, 0]) 1,
        v = 0 ∨ v = 255) := by
  constructor
  · rfl
  · decide

/-- C3 amended: per-sample binarization of 1-bit data (any sample
above 0 maps to 255, 0 maps to 0) happens on the 1-channel path, which
always runs the enhanced normalizer; on the 3-channel path 1-bit data
takes the plain normalizer and is passed through unchanged. The
sequence [0, 5, 0, 255] is binarized to [0, 255, 0, 255] on the
1-channel path. -/
theorem c3_one_bit_binarization (xs : List ℕ) :
    normalizeForPath ChannelPath.gray (SampleData.u8 xs) 1 =
      xs.map (fun v => if 0 < v then (255 : ℤ) else 0) ∧
    normalizeForPath ChannelPath.rgb (SampleData.u8 xs) 1 =
      xs.map (Nat.cast : ℕ → ℤ) ∧
    normalizeForPath ChannelPath.gray (SampleData.u8 [0, 5, 0, 255]) 1 =
      [0, 255, 0, 255] := by
  refine ⟨?_, ?_, by decide⟩
  · simp [normalizeForPath, normalizeToUint8Enhanced, normalizeU8]
  · simp [normalizeForPath, normalizeToUint8]

/-- C10: for 8-bit Uint8Array data the enhanced normalizer and the
plain fixed-range normalizer agree element-wise; both are a direct
copy of the input, so the choice of normalization path cannot change
the displayed result for 8-bit data. -/
theorem c10_eight_bit_paths_agree (xs : List ℕ) :
    normalizeToUint8Enhanced (SampleData.u8 xs) 8 =
      normalizeToUint8 (SampleData.u8 xs) 8 ∧
    normalizeToUint8Enhanced (SampleData.u8 xs) 8 = xs.map (Nat.cast : ℕ → ℤ) := by
  constructor <;> simp [normalizeToUint8Enhanced, normalizeToUint8, normalizeU8]

/-- C6: validateTiff is a total function returning a record for every
byte buffer, and it reports valid exactly when the buffer holds at
least 8 bytes, starts with the marker II or MM (byte pairs 73,73 or
77,77), and the 16-bit word at offset 2, read little-endian under II
and big-endian under MM, equals 42; in every other case it reports
invalid together with a non-empty diagnostic message distinct from
the success message. -/
theorem c6_validate_characterization (buffer : List ℕ) :
    ((validateTiff buffer).1 = true ↔
      (8 ≤ buffer.length ∧
        ((buffer.getD 0 0 = 73 ∧ buffer.getD 1 0 = 73 ∧
            buffer.getD 2 0 + 256 * buffer.getD 3 0 = 42) ∨
         (buffer.getD 0 0 = 77 ∧ buffer.getD 1 0 = 77 ∧
            256 * buffer.getD 2 0 + buffer.getD 3 0 = 42)))) ∧
    ((validateTiff buffer).1 = false →
      (validateTiff buffer).2 ≠ "" ∧ (validateTiff buffer).2 ≠ "Valid TIFF file") := by
  have hhex : ∀ b : ℕ, (byteToHex b).length = 2 := fun b => rfl
  have hmagiclen : ∀ s : String,
      "Invalid TIFF magic number: " ++ s ++ " (expected 42)" ≠ "" ∧
      "Invalid TIFF magic number: " ++ s ++ " (expected 42)" ≠ "Valid TIFF file" := by
    intro s
    constructor <;> intro h <;> have hc := congrArg String.length h <;>
      simp only [String.length_append] at hc
    · have hl1 : ("Invalid TIFF magic number: ").length = 27 := by decide
      have hl2 : (" (expected 42)").length = 14 := by decide
      have hl3 : ("" : String).length = 0 := by decide
      omega
    · have hl1 : ("Invalid TIFF magic number: ").length = 27 := by decide
      have hl2 : (" (expected 42)").length = 14 := by decide
      have hl3 : ("Valid TIFF file").length = 15 := by decide
      omega
  have horderlen : ∀ a b : ℕ,
      "Invalid TIFF byte order marker: 0x" ++ byteToHex a ++ byteToHex b ≠ "" ∧
      "Invalid TIFF byte order marker: 0x" ++ byteToHex a ++ byteToHex b ≠ "Valid TIFF file" := by
    intro a b
    constructor <;> intro h <;> have hc := congrArg String.length h <;>
      simp only [String.length_append, hhex] at hc
    · have hl1 : ("Invalid TIFF byte order marker: 0x").length = 34 := by decide
      have hl3 : ("" : String).length = 0 := by decide
      omega
    · have hl1 : ("Invalid TIFF byte order marker: 0x").length = 34 := by decide
      have hl3 : ("Valid TIFF file").length = 15 := by decide
      omega
  simp only [validateTiff]
  split_ifs with h1 h2 h3 h4 h5
  · -- too small
    exact ⟨by simp; omega, fun _ => ⟨by decide, by decide⟩⟩
  · -- II marker, magic 42: valid
    refine ⟨⟨fun _ => ⟨by omega, ?_⟩, fun _ => rfl⟩, fun hfalse => by simp at hfalse⟩
    left
    refine ⟨h3, ?_, h4⟩
    rcases h2 with ⟨_, hb⟩ | ⟨ha, _⟩
    · exact hb
    · omega
  · -- II marker, magic wrong
    refine ⟨⟨fun h => by simp at h, fun hr => ?_⟩, fun _ => hmagiclen _⟩
    exfalso
    rcases hr with ⟨_, ⟨_, _, hm⟩ | ⟨ha, _, _⟩⟩
    · exact h4 hm
    · omega
  · -- MM marker, magic 42: valid
    refine ⟨⟨fun _ => ⟨by omega, ?_⟩, fun _ => rfl⟩, fun hfalse => by simp at hfalse⟩
    right
    rcases h2 with ⟨ha, _⟩ | ⟨ha, hb⟩
    · exact absurd ha h3
    · exact ⟨ha, hb, h5⟩
  · -- MM marker, magic wrong
    refine ⟨⟨fun h => by simp at h, fun hr => ?_⟩, fun _ => hmagiclen _⟩
    exfalso
    rcases hr with ⟨_, ⟨ha, _, _⟩ | ⟨_, _, hm⟩⟩
    · exact h3 ha
    · exact h5 hm
  · -- bad byte order marker
    refine ⟨⟨fun h => by simp at h, fun hr => ?_⟩, fun _ => horderlen _ _⟩
    exfalso
    rcases hr with ⟨_, ⟨ha, hb, _⟩ | ⟨ha, hb, _⟩⟩
    · exact h2 (Or.inl ⟨ha, hb⟩)
    · exact h2 (Or.inr ⟨ha, hb⟩)

/-- C6 witness: the characterization instantiated at a minimal valid
little-endian header (II, magic 42) and at a buffer whose marker bytes
are wrong, whose diagnostic message differs from the success one. -/
theorem c6_validate_characterization_witness :
    (validateTiff [73, 73, 42, 0, 0, 0, 0, 0]).1 = true ∧
    (validateTiff [0, 1, 2, 3, 4, 5, 6, 7]).2 ≠ "Valid TIFF file" := by
  constructor
  · exact (c6_validate_characterization [73, 73, 42, 0, 0, 0, 0, 0]).1.mpr
      ⟨by decide, Or.inl (by decide)⟩
  · exact ((c6_validate_characterization [0, 1, 2, 3, 4, 5, 6, 7]).2 (by decide)).2

/-- Evaluation rule for jsRound at a known integer result. -/
lemma jsRound_eq {q : ℚ} {z : ℤ} (h1 : (z : ℚ) ≤ q + 1 / 2)
    (h2 : q + 1 / 2 < (z : ℚ) + 1) : jsRound q = z := by
  unfold jsRound
  exact Int.floor_eq_iff.mpr ⟨h1, h2⟩

/-- Evaluation rule for jsRound after a clamp that does not bind. -/
lemma jsRound_clamp_eval {q : ℚ} {z : ℤ} (h0 : 0 ≤ q) (h255 : q ≤ 255)
    (h1 : (z : ℚ) ≤ q + 1 / 2) (h2 : q + 1 / 2 < (z : ℚ) + 1) :
    jsRound (clamp255 q) = z := by
  have hc : clamp255 q = q := by
    unfold clamp255
    rw [min_eq_right h255, max_eq_right h0]
  rw [hc]
  exact jsRound_eq h1 h2

/-- The Uint16 stretch branch realizes the spec formula: with mn and mx
characterized as the least and greatest sample of the sequence and
mn < mx, every sample v maps to round(clamp((v - mn)/(mx - mn)*255)). -/
lemma u16_stretch_spec (xs : List ℕ) (mn mx : ℕ) (hmn : mn ∈ xs) (hmx : mx ∈ xs)
    (hbound : ∀ v ∈ xs, mn ≤ v ∧ v ≤ mx) (hlt : mn < mx) :
    normalizeToUint8Enhanced (SampleData.u16 xs) 16 =
      xs.map (fun (v : ℕ) =>
        jsRound (clamp255 (((v : ℚ) - (mn : ℚ)) / ((mx : ℚ) - (mn : ℚ)) * 255))) := by
  match xs with
  | [] => simp at hmn
  | x :: rest =>
    have hminval : rest.foldl min x = mn := by
      apply le_antisymm
      · rcases List.mem_cons.mp hmn with h | h
        · exact h ▸ foldl_min_le_init rest x
        · exact foldl_min_le_mem rest x mn h
      · exact (hbound _ (foldl_min_mem rest x)).1
    have hmaxval : rest.foldl max x = mx := by
      apply le_antisymm
      · exact (hbound _ (foldl_max_mem rest x)).2
      · rcases List.mem_cons.mp hmx with h | h
        · exact h ▸ foldl_max_le_init rest x
        · exact foldl_max_le_mem rest x mx h
    simp only [normalizeToUint8Enhanced, normalizeU16, hminval, hmaxval, if_pos hlt]

/-- The Float32 stretch branch realizes the spec formula: with mn and
mx characterized as the least and greatest finite sample and mn < mx,
finite samples are stretched and non-finite samples map to 0. -/
lemma f32_stretch_spec (ys : List (Option ℚ)) (mn mx : ℚ)
    (hmn : some mn ∈ ys) (hmx : some mx ∈ ys)
    (hbound : ∀ v : ℚ, some v ∈ ys → mn ≤ v ∧ v ≤ mx) (hlt : mn < mx) :
    normalizeToUint8Enhanced (SampleData.f32 ys) 32 =
      ys.map (fun y =>
        match y with
        | some v => jsRound (clamp255 ((v - mn) / (mx - mn) * 255))
        | none => 0) := by
  have hminv : f32Min ys = some mn :=
    f32Min_eq_some hmn (fun v hv => (hbound v hv).1)
  have hmaxv : f32Max ys = some mx :=
    f32Max_eq_some hmx (fun v hv => (hbound v hv).2)
  simp only [normalizeToUint8Enhanced, normalizeF32, hminv, hmaxv, if_pos hlt]

/-- C1: for 16-bit and 32-bit rasters whose samples contain two
distinct finite values, normalization maps each finite sample v to
round(clamp((v - min) / (max - min) * 255, 0, 255)) where min and max
are the smallest and largest finite values of the whole sample
sequence, and maps each non-finite sample to 0; in particular the
16-bit samples [100, 200, 300, 400] yield [0, 85, 170, 255]. -/
theorem c1_stretch_formula :
    (∀ (xs : List ℕ) (mn mx : ℕ), mn ∈ xs → mx ∈ xs →
      (∀ v ∈ xs, mn ≤ v ∧ v ≤ mx) → mn < mx →
      normalizeToUint8Enhanced (SampleData.u16 xs) 16 =
        xs.map (fun (v : ℕ) =>
          jsRound (clamp255 (((v : ℚ) - (mn : ℚ)) / ((mx : ℚ) - (mn : ℚ)) * 255)))) ∧
    (∀ (ys : List (Option ℚ)) (mn mx : ℚ), some mn ∈ ys → some mx ∈ ys →
      (∀ v : ℚ, some v ∈ ys → mn ≤ v ∧ v ≤ mx) → mn < mx →
      normalizeToUint8Enhanced (SampleData.f32 ys) 32 =
        ys.map (fun y =>
          match y with
          | some v => jsRound (clamp255 ((v - mn) / (mx - mn) * 255))
          | none => 0)) ∧
    normalizeToUint8Enhanced (SampleData.u16 [100, 200, 300, 400]) 16 =
      [0, 85, 170, 255] := by
  refine ⟨u16_stretch_spec, f32_stretch_spec, ?_⟩
  rw [u16_stretch_spec [100, 200, 300, 400] 100 400
    (by decide) (by decide) (by decide) (by decide)]
  simp only [List.map, List.cons.injEq, and_true]
  refine ⟨?_, ?_, ?_, ?_⟩ <;>
    apply jsRound_clamp_eval <;> push_cast <;> norm_num

/-- C1 witness: the stretch formula instantiated at the 16-bit samples
[100, 200, 300, 400] with observed range 100..400, and at the 32-bit
float samples [0, NaN, 1] with observed finite range 0..1. -/
theorem c1_stretch_formula_witness :
    normalizeToUint8Enhanced (SampleData.u16 [100, 200, 300, 400]) 16 =
      ([100, 200, 300, 400] : List ℕ).map (fun (v : ℕ) =>
        jsRound (clamp255 (((v : ℚ) - ((100 : ℕ) : ℚ)) /
          (((400 : ℕ) : ℚ) - ((100 : ℕ) : ℚ)) * 255))) ∧
    normalizeToUint8Enhanced (SampleData.f32 [some 0, none, some 1]) 32 =
      [some 0, none, some 1].map (fun y =>
        match y with
        | some v => jsRound (clamp255 ((v - 0) / (1 - 0) * 255))
        | none => 0) := by
  constructor
  · exact c1_stretch_formula.1 [100, 200, 300, 400] 100 400
      (by decide) (by decide) (by decide) (by decide)
  · refine c1_stretch_formula.2.1 [some 0, none, some 1] 0 1
      (by decide) (by decide) ?_ (by norm_num)
    intro v hv
    simp at hv
    rcases hv with rfl | rfl <;> norm_num

/-- C7: degenerate 16-bit and 32-bit normalization. A uniform 16-bit
raster of value m fills with round(m / 65535 * 255) (65535 is
(1 << 16) - 1); a 32-bit float raster whose finite samples all equal
q fills with round(255) when the absolute value of q exceeds 1 and
round(abs(q) * 255) otherwise; a raster with no finite sample at all
yields an all-zero output of the same length. All three cases are
computed by total functions, so no division by zero or exception
occurs. -/
theorem c7_degenerate_range (n m : ℕ) (q : ℚ) (ys zs : List (Option ℚ))
    (hn : 0 < n) (hq : some q ∈ ys) (hys : ∀ y ∈ ys, y = some q ∨ y = none)
    (hzs : ∀ z ∈ zs, z = none) :
    normalizeToUint8Enhanced (SampleData.u16 (List.replicate n m)) 16 =
      List.replicate n (jsRound ((m : ℚ) / 65535 * 255)) ∧
    normalizeToUint8Enhanced (SampleData.f32 ys) 32 =
      List.replicate ys.length (jsRound (if 1 < |q| then 255 else |q| * 255)) ∧
    normalizeToUint8Enhanced (SampleData.f32 zs) 32 =
      List.replicate zs.length 0 := by
  refine ⟨?_, ?_, ?_⟩
  · obtain ⟨k, rfl⟩ : ∃ k, n = k + 1 := ⟨n - 1, by omega⟩
    rw [List.replicate_succ]
    have hmm : (List.replicate k m).foldl min m = m := by
      have h := foldl_min_mem (List.replicate k m) m
      rcases List.mem_cons.mp h with h | h
      · exact h
      · exact List.eq_of_mem_replicate h
    have hMM : (List.replicate k m).foldl max m = m := by
      have h := foldl_max_mem (List.replicate k m) m
      rcases List.mem_cons.mp h with h | h
      · exact h
      · exact List.eq_of_mem_replicate h
    have hshl : ((jsShl1 16 : ℕ) : ℚ) - 1 = 65535 := by norm_num [jsShl1]
    simp only [normalizeToUint8Enhanced, normalizeU16, hmm, hMM, lt_irrefl,
      if_false, hshl, List.length_cons, List.length_replicate]
  · have hminv : f32Min ys = some q := by
      apply f32Min_eq_some hq
      intro v hv
      rcases hys _ hv with h | h
      · rw [Option.some_inj] at h
        exact le_of_eq h.symm
      · exact absurd h (by simp)
    have hmaxv : f32Max ys = some q := by
      apply f32Max_eq_some hq
      intro v hv
      rcases hys _ hv with h | h
      · rw [Option.some_inj] at h
        exact le_of_eq h
      · exact absurd h (by simp)
    simp only [normalizeToUint8Enhanced, normalizeF32, hminv, hmaxv, lt_irrefl,
      if_false]
  · have hminz : f32Min zs = none := f32Min_none hzs
    have hmaxz : f32Max zs = none := f32Max_none hzs
    simp only [normalizeToUint8Enhanced, normalizeF32, hminz, hmaxz]

/-- C7 witness: the degenerate cases instantiated at the uniform
16-bit raster [500, 500, 500], the uniform float raster [5, NaN] and
the all-non-finite raster [NaN, NaN]. -/
theorem c7_degenerate_range_witness :
    normalizeToUint8Enhanced (SampleData.u16 (List.replicate 3 500)) 16 =
      List.replicate 3 (jsRound (((500 : ℕ) : ℚ) / 65535 * 255)) ∧
    normalizeToUint8Enhanced (SampleData.f32 [some 5, none]) 32 =
      List.replicate ([some 5, none] : List (Option ℚ)).length
        (jsRound (if 1 < |(5 : ℚ)| then 255 else |(5 : ℚ)| * 255)) ∧
    normalizeToUint8Enhanced (SampleData.f32 [none, none]) 32 =
      List.replicate ([none, none] : List (Option ℚ)).length 0 :=
  c7_degenerate_range 3 500 5 [some 5, none] [none, none]
    (by decide) (by decide) (by decide) (by decide)

lemma clamp255_bounds (q : ℚ) : 0 ≤ clamp255 q ∧ clamp255 q ≤ 255 := by
  unfold clamp255
  constructor
  · exact le_max_left 0 _
  · exact max_le (by norm_num) (min_le_left 255 q)

lemma jsRound_bounds {q : ℚ} (h0 : 0 ≤ q) (h255 : q ≤ 255) :
    0 ≤ jsRound q ∧ jsRound q ≤ 255 := by
  constructor
  · exact Int.le_floor.mpr (by push_cast; linarith)
  · have h : jsRound q < 256 := by
      unfold jsRound
      exact Int.floor_lt.mpr (by push_cast; linarith)
    omega

lemma jsRound_clamp_bounds (q : ℚ) :
    0 ≤ jsRound (clamp255 q) ∧ jsRound (clamp255 q) ≤ 255 :=
  jsRound_bounds (clamp255_bounds q).1 (clamp255_bounds q).2

/-- Every output value of the enhanced normalizer on well-formed data
is a byte. -/
lemma normalizeToUint8Enhanced_bounds (data : SampleData) (bits : ℕ)
    (hwf : data.wf bits) :
    ∀ v ∈ normalizeToUint8Enhanced data bits, 0 ≤ v ∧ v ≤ 255 := by
  intro v hv
  match data with
  | .u8 xs =>
    obtain ⟨hbits, hb⟩ := hwf
    simp only [normalizeToUint8Enhanced, normalizeU8] at hv
    split_ifs at hv
    · simp only [List.mem_map] at hv
      obtain ⟨u, _, rfl⟩ := hv
      split_ifs <;> omega
    · simp only [List.mem_map] at hv
      obtain ⟨u, hu, rfl⟩ := hv
      have := hb u hu
      omega
  | .u16 xs =>
    obtain ⟨hbits, hb⟩ := hwf
    subst hbits
    match xs with
    | [] => simp [normalizeToUint8Enhanced, normalizeU16] at hv
    | x :: rest =>
      simp only [normalizeToUint8Enhanced, normalizeU16] at hv
      split_ifs at hv with hlt
      · simp only [List.mem_map] at hv
        obtain ⟨u, _, rfl⟩ := hv
        exact jsRound_clamp_bounds _
      · have hrep := List.eq_of_mem_replicate hv
        subst hrep
        set mnv := rest.foldl min x with hmnv
        have hmem : mnv ∈ x :: rest := foldl_min_mem rest x
        have hlt65536 : mnv < 65536 := hb mnv hmem
        have hshl : ((jsShl1 16 : ℕ) : ℚ) - 1 = 65535 := by norm_num [jsShl1]
        rw [hshl]
        apply jsRound_bounds
        · positivity
        · rw [div_mul_eq_mul_div, div_le_iff₀ (by norm_num)]
          have : (mnv : ℚ) ≤ 65535 := by
            have : (mnv : ℚ) < 65536 := by exact_mod_cast hlt65536
            have hint : (mnv : ℚ) ≤ 65535 := by
              have := Nat.lt_succ_iff.mp (by omega : mnv < 65535 + 1)
              exact_mod_cast this
            exact hint
          nlinarith
  | .f32 xs =>
    simp only [normalizeToUint8Enhanced, normalizeF32] at hv
    rcases hmin : f32Min xs with _ | mn <;> rcases hmax : f32Max xs with _ | mx <;>
      rw [hmin, hmax] at hv
    · simp only [List.mem_replicate] at hv
      omega
    · simp only [List.mem_replicate] at hv
      omega
    · simp only [List.mem_replicate] at hv
      omega
    · dsimp only at hv
      split_ifs at hv with hlt habs
      · simp only [List.mem_map] at hv
        obtain ⟨y, _, rfl⟩ := hv
        match y with
        | some u => exact jsRound_clamp_bounds _
        | none => exact ⟨le_refl 0, by norm_num⟩
      · have hrep := List.eq_of_mem_replicate hv
        subst hrep
        apply jsRound_bounds <;> norm_num
      · have hrep := List.eq_of_mem_replicate hv
        subst hrep
        apply jsRound_bounds
        · positivity
        · push_neg at habs
          nlinarith [abs_nonneg mn]

/-- Every output value of the plain normalizer on well-formed Uint8
data is a byte (the only case the pipeline routes to it). -/
lemma normalizeToUint8_u8_bounds (xs : List ℕ) (bits : ℕ)
    (hb : ∀ u ∈ xs, u < 256) :
    ∀ v ∈ normalizeToUint8 (SampleData.u8 xs) bits, 0 ≤ v ∧ v ≤ 255 := by
  intro v hv
  simp only [normalizeToUint8, List.mem_map] at hv
  obtain ⟨u, hu, rfl⟩ := hv
  have := hb u hu
  omega

lemma normalizeForPath_bounds (path : ChannelPath) (data : SampleData)
    (bits : ℕ) (hwf : data.wf bits) :
    ∀ v ∈ normalizeForPath path data bits, 0 ≤ v ∧ v ≤ 255 := by
  match path with
  | .gray => exact normalizeToUint8Enhanced_bounds data bits hwf
  | .rgb =>
    simp only [normalizeForPath]
    split_ifs with h16
    · exact normalizeToUint8Enhanced_bounds data bits hwf
    · match data with
      | .u8 xs => exact normalizeToUint8_u8_bounds xs bits hwf.2
      | .u16 xs => exact absurd (hwf.1 ▸ h16) (by omega)
      | .f32 xs => exact absurd (hwf ▸ h16) (by omega)

lemma normalizeToUint8Enhanced_length (data : SampleData) (bits : ℕ) :
    (normalizeToUint8Enhanced data bits).length = data.len := by
  match data with
  | .u8 xs =>
    simp only [normalizeToUint8Enhanced, normalizeU8, SampleData.len]
    split_ifs <;> simp
  | .u16 xs =>
    match xs with
    | [] => rfl
    | x :: rest =>
      simp only [normalizeToUint8Enhanced, normalizeU16, SampleData.len]
      split_ifs <;> simp
  | .f32 xs =>
    simp only [normalizeToUint8Enhanced, normalizeF32, SampleData.len]
    rcases f32Min xs with _ | mn <;> rcases f32Max xs with _ | mx <;>
      dsimp only <;> try simp
    split_ifs <;> simp

lemma normalizeToUint8_length (data : SampleData) (bits : ℕ) :
    (normalizeToUint8 data bits).length = data.len := by
  match data with
  | .u8 xs => simp [normalizeToUint8, SampleData.len]
  | .u16 xs => simp [normalizeToUint8, SampleData.len]
  | .f32 xs => simp [normalizeToUint8, SampleData.len]

lemma normalizeForPath_length (path : ChannelPath) (data : SampleData)
    (bits : ℕ) : (normalizeForPath path data bits).length = data.len := by
  match path with
  | .gray => exact normalizeToUint8Enhanced_length data bits
  | .rgb =>
    simp only [normalizeForPath]
    split_ifs
    · exact normalizeToUint8Enhanced_length data bits
    · exact normalizeToUint8_length data bits

lemma bind_pack_length (px : List (ℤ × ℤ × ℤ)) :
    (px.flatMap pack).length = 4 * px.length := by
  induction px with
  | nil => rfl
  | cons p rest ih =>
    simp only [List.flatMap_cons, List.length_append, ih, pack,
      List.length_cons, List.length_nil, List.length_cons]
    omega

lemma mem_bind_pack {v : ℤ} {px : List (ℤ × ℤ × ℤ)}
    (hv : v ∈ px.flatMap pack) :
    (∃ p ∈ px, v = p.1 ∨ v = p.2.1 ∨ v = p.2.2) ∨ v = 255 := by
  simp only [List.mem_flatMap] at hv
  obtain ⟨p, hp, hvp⟩ := hv
  simp only [pack, List.mem_cons, List.mem_singleton] at hvp
  rcases hvp with h | h | h | h
  · exact Or.inl ⟨p, hp, Or.inl h⟩
  · exact Or.inl ⟨p, hp, Or.inr (Or.inl h)⟩
  · exact Or.inl ⟨p, hp, Or.inr (Or.inr h)⟩
  · simp at h
    exact Or.inr h

lemma assembleGray_spec (ns : List ℤ) :
    ∃ px : List (ℤ × ℤ × ℤ), assembleGray ns = px.flatMap pack ∧
      px.length = ns.length ∧
      ∀ p ∈ px, p.1 ∈ ns ∧ p.2.1 ∈ ns ∧ p.2.2 ∈ ns := by
  refine ⟨ns.map (fun v => (v, v, v)), ?_, by simp, ?_⟩
  · induction ns with
    | nil => rfl
    | cons v rest ih =>
      simp only [assembleGray, List.flatMap_cons, List.map_cons] at ih ⊢
      rw [ih]
      rfl
  · intro p hp
    simp only [List.mem_map] at hp
    obtain ⟨v, hv, rfl⟩ := hp
    exact ⟨hv, hv, hv⟩

lemma assembleRGB_spec : ∀ (n : ℕ) (ns : List ℤ), ns.length = 3 * n →
    ∃ px : List (ℤ × ℤ × ℤ), assembleRGB ns = px.flatMap pack ∧
      px.length = n ∧
      ∀ p ∈ px, p.1 ∈ ns ∧ p.2.1 ∈ ns ∧ p.2.2 ∈ ns := by
  intro n
  induction n with
  | zero =>
    intro ns h
    have : ns = [] := List.eq_nil_of_length_eq_zero (by omega)
    subst this
    exact ⟨[], rfl, rfl, by simp⟩
  | succ k ih =>
    intro ns h
    match ns with
    | [] => simp at h
    | [_] => simp at h; omega
    | [_, _] => simp at h; omega
    | a :: b :: c :: rest =>
      have hr : rest.length = 3 * k := by
        simp only [List.length_cons] at h
        omega
      obtain ⟨px, h1, h2, h3⟩ := ih rest hr
      refine ⟨(a, b, c) :: px, ?_, by simp [h2], ?_⟩
      · simp only [List.flatMap_cons, pack]
        rw [show assembleRGB (a :: b :: c :: rest) =
          a :: b :: c :: 255 :: assembleRGB rest from rfl, h1]
        rfl
      · intro p hp
        rcases List.mem_cons.mp hp with hph | hph
        · subst hph
          refine ⟨by simp, by simp, by simp⟩
        · obtain ⟨q1, q2, q3⟩ := h3 p hph
          refine ⟨?_, ?_, ?_⟩ <;> simp_all [List.mem_cons]

/-- C5: for every well-formed raster on each channel path, the RGBA
output of the sample-to-display stage is a sequence of width * height
pixels, each contributing four bytes whose last one (alpha) is 255, so
its total length is width * height * 4 and every entry lies in
[0, 255]. -/
theorem c5_rgba_invariants (path : ChannelPath) (data : SampleData)
    (bits w h : ℕ) (hwf : data.wf bits)
    (hlen : data.len = w * h * channelsRead path) :
    ∃ px : List (ℤ × ℤ × ℤ),
      processSamples path data bits = px.flatMap pack ∧
      px.length = w * h ∧
      (processSamples path data bits).length = w * h * 4 ∧
      ∀ v ∈ processSamples path data bits, 0 ≤ v ∧ v ≤ 255 := by
  have hnlen : (normalizeForPath path data bits).length = data.len :=
    normalizeForPath_length path data bits
  have hbounds := normalizeForPath_bounds path data bits hwf
  match path with
  | .gray =>
    obtain ⟨px, h1, h2, h3⟩ := assembleGray_spec (normalizeForPath .gray data bits)
    have hpx : px.length = w * h := by
      rw [h2, hnlen, hlen]
      simp [channelsRead]
    refine ⟨px, h1, hpx, ?_, ?_⟩
    · show (assembleGray (normalizeForPath .gray data bits)).length = w * h * 4
      rw [h1, bind_pack_length, hpx]
      ring
    · intro v hv
      rw [show processSamples .gray data bits =
        assembleGray (normalizeForPath .gray data bits) from rfl, h1] at hv
      rcases mem_bind_pack hv with ⟨p, hp, hc⟩ | hc
      · obtain ⟨q1, q2, q3⟩ := h3 p hp
        rcases hc with rfl | rfl | rfl
        · exact hbounds _ q1
        · exact hbounds _ q2
        · exact hbounds _ q3
      · subst hc
        exact ⟨by norm_num, le_refl 255⟩
  | .rgb =>
    have hlen3 : (normalizeForPath .rgb data bits).length = 3 * (w * h) := by
      rw [hnlen, hlen]
      simp [channelsRead]
      ring
    obtain ⟨px, h1, h2, h3⟩ :=
      assembleRGB_spec (w * h) (normalizeForPath .rgb data bits) hlen3
    refine ⟨px, h1, h2, ?_, ?_⟩
    · show (assembleRGB (normalizeForPath .rgb data bits)).length = w * h * 4
      rw [h1, bind_pack_length, h2]
      ring
    · intro v hv
      rw [show processSamples .rgb data bits =
        assembleRGB (normalizeForPath .rgb data bits) from rfl, h1] at hv
      rcases mem_bind_pack hv with ⟨p, hp, hc⟩ | hc
      · obtain ⟨q1, q2, q3⟩ := h3 p hp
        rcases hc with rfl | rfl | rfl
        · exact hbounds _ q1
        · exact hbounds _ q2
        · exact hbounds _ q3
      · subst hc
        exact ⟨by norm_num, le_refl 255⟩

/-- C5 witness: the invariants instantiated at a 2 by 2 grayscale
8-bit raster with samples [0, 128, 255, 64]. -/
theorem c5_rgba_invariants_witness :
    ∃ px : List (ℤ × ℤ × ℤ),
      processSamples ChannelPath.gray (SampleData.u8 [0, 128, 255, 64]) 8 =
        px.flatMap pack ∧
      px.length = 2 * 2 ∧
      (processSamples ChannelPath.gray (SampleData.u8 [0, 128, 255, 64]) 8).length =
        2 * 2 * 4 ∧
      ∀ v ∈ processSamples ChannelPath.gray (SampleData.u8 [0, 128, 255, 64]) 8,
        0 ≤ v ∧ v ≤ 255 :=
  c5_rgba_invariants ChannelPath.gray (SampleData.u8 [0, 128, 255, 64]) 8 2 2
    ⟨Or.inr rfl, by decide⟩ rfl

lemma mem_of_mem_getLast? {α : Type} {l : List α} {x : α}
    (h : x ∈ l.getLast?) : x ∈ l := by
  obtain ⟨hne, rfl⟩ := List.mem_getLast?_eq_getLast h
  exact List.getLast_mem hne

lemma downloadPercent_range (total : Option ℕ) (cum : ℕ) :
    10 ≤ downloadPercent total cum ∧ downloadPercent total cum ≤ 60 := by
  match total with
  | none => norm_num [downloadPercent]
  | some t =>
    simp only [downloadPercent]
    split_ifs with ht
    · norm_num
    · constructor
      · have h1 : (0 : ℚ) ≤ min ((cum : ℚ) / (t : ℚ) * 50) 50 :=
          le_min (by positivity) (by norm_num)
        linarith
      · have h2 : min ((cum : ℚ) / (t : ℚ) * 50) 50 ≤ 50 := min_le_right _ _
        linarith

lemma downloadPercent_mono (total : Option ℕ) {a b : ℕ} (hab : a ≤ b) :
    downloadPercent total a ≤ downloadPercent total b := by
  match total with
  | none => exact le_refl _
  | some t =>
    simp only [downloadPercent]
    split_ifs with ht
    · exact le_refl _
    · have ht0 : (0 : ℚ) < (t : ℚ) := by
        exact_mod_cast Nat.pos_of_ne_zero ht
      have hcast : (a : ℚ) ≤ (b : ℚ) := by exact_mod_cast hab
      have hdiv : (a : ℚ) / (t : ℚ) * 50 ≤ (b : ℚ) / (t : ℚ) * 50 := by
        rw [div_eq_mul_inv, div_eq_mul_inv]
        exact mul_le_mul_of_nonneg_right
          (mul_le_mul_of_nonneg_right hcast (inv_nonneg.mpr ht0.le)) (by norm_num)
      have := min_le_min hdiv (le_refl (50 : ℚ))
      linarith

lemma downloadReports_cons (total : Option ℕ) (cum : ℕ) (c : ℕ × ℕ)
    (rest : List (ℕ × ℕ)) :
    (downloadReports total cum (c :: rest)).map Prod.fst =
      downloadPercent total (cum + c.1) ::
        (downloadReports total (cum + c.1) rest).map Prod.fst := rfl

lemma downloadReports_chain (total : Option ℕ) :
    ∀ (chunks : List (ℕ × ℕ)) (cum : ℕ),
      List.Chain' (· ≤ ·) ((downloadReports total cum chunks).map Prod.fst) := by
  intro chunks
  induction chunks with
  | nil => intro cum; simp [downloadReports]
  | cons c rest ih =>
    intro cum
    cases rest with
    | nil => simp [downloadReports]
    | cons d rest2 =>
      rw [downloadReports_cons, downloadReports_cons]
      refine List.chain'_cons.mpr ⟨?_, ?_⟩
      · exact downloadPercent_mono total (by omega)
      · rw [← downloadReports_cons]
        exact ih (cum + c.1)

lemma downloadReports_mem (total : Option ℕ) :
    ∀ (chunks : List (ℕ × ℕ)) (cum : ℕ) (p : ℚ),
      p ∈ (downloadReports total cum chunks).map Prod.fst →
        10 ≤ p ∧ p ≤ 60 := by
  intro chunks
  induction chunks with
  | nil => intro cum p hp; simp [downloadReports] at hp
  | cons c rest ih =>
    intro cum p hp
    rw [downloadReports_cons, List.mem_cons] at hp
    rcases hp with rfl | hp
    · exact downloadPercent_range total _
    · exact ih _ _ hp

/-- Shape lemma: prefixing the fixed stage percents 5, 5, 10 and
appending 60..100 to any non-decreasing list of download percents in
[10, 60] keeps the sink sequence non-decreasing and inside [0, 100]. -/
lemma sink_shape (l : List ℚ) (hc : List.Chain' (· ≤ ·) l)
    (hb : ∀ p ∈ l, 10 ≤ p ∧ p ≤ 60) :
    List.Chain' (· ≤ ·)
      (([5, 5, 10] : List ℚ) ++ l ++ [60, 70, 75, 80, 85, 90, 95, 100]) ∧
    ∀ p ∈ ([5, 5, 10] : List ℚ) ++ l ++ [60, 70, 75, 80, 85, 90, 95, 100],
      0 ≤ p ∧ p ≤ 100 := by
  constructor
  · have h1 : List.Chain' (· ≤ ·) (l ++ ([60, 70, 75, 80, 85, 90, 95, 100] : List ℚ)) := by
      rw [List.chain'_append]
      refine ⟨hc, by norm_num [List.chain'_cons, List.chain'_singleton], ?_⟩
      intro x hx y hy
      simp only [List.head?] at hy
      rw [Option.mem_def, Option.some_inj] at hy
      subst hy
      exact le_trans (hb x (mem_of_mem_getLast? hx)).2 (by norm_num)
    have heq : ([5, 5, 10] : List ℚ) ++ l ++ [60, 70, 75, 80, 85, 90, 95, 100] =
        5 :: 5 :: 10 :: (l ++ [60, 70, 75, 80, 85, 90, 95, 100]) := by simp
    rw [heq]
    refine List.chain'_cons'.mpr ⟨?_, List.chain'_cons'.mpr ⟨?_,
      List.chain'_cons'.mpr ⟨?_, h1⟩⟩⟩
    · intro y hy
      simp only [List.head?, Option.mem_def, Option.some_inj] at hy
      subst hy
      norm_num
    · intro y hy
      simp only [List.head?, Option.mem_def, Option.some_inj] at hy
      subst hy
      norm_num
    · intro y hy
      cases l with
      | nil =>
        simp only [List.nil_append, List.head?, Option.mem_def, Option.some_inj] at hy
        subst hy
        norm_num
      | cons a l2 =>
        simp only [List.cons_append, List.head?, Option.mem_def, Option.some_inj] at hy
        subst hy
        exact (hb a (by simp)).1
  · intro p hp
    simp only [List.append_assoc, List.mem_append, List.mem_cons,
      List.not_mem_nil, or_false] at hp
    rcases hp with (rfl | rfl | rfl) | hp | hp
    · norm_num
    · norm_num
    · norm_num
    · have := hb p hp
      constructor <;> linarith [this.1, this.2]
    · rcases hp with rfl | rfl | rfl | rfl | rfl | rfl | rfl | rfl <;> norm_num

/-- C4 counterexample: the claim also covers the percent values
written to the loadingProgress state, and that sequence is not
monotone: after the sink has reported 100, the component sets the
state back to 98 (Preparing viewer) before the final 100, so for a
load with no chunks the state sequence ends 95, 100, 98, 100. -/
theorem c4_counterexample :
    ¬ List.Chain' (· ≤ ·) (statePercents none []) := by
  intro h
  have heval : statePercents none [] =
      [0, 0, 2, 5, 5, 10, 60, 70, 75, 80, 85, 90, 95, 100, 98, 100] := rfl
  rw [heval] at h
  simp only [List.chain'_cons, List.chain'_singleton] at h
  norm_num at h

/-- C4 amended: within one load the percents reported to the
onProgress sink are monotonically non-decreasing and lie in [0, 100],
for every declared total size and every chunk arrival pattern; the
progress state however additionally receives 0, 0, 2 before the sink
values and 98, 100 after them, and the 98 written after the sink has
reported 100 breaks monotonicity of the state sequence. -/
theorem c4_sink_monotone (total : Option ℕ) (chunks : List (ℕ × ℕ)) :
    List.Chain' (· ≤ ·) (sinkPercents total chunks) ∧
    (∀ p ∈ sinkPercents total chunks, 0 ≤ p ∧ p ≤ 100) ∧
    statePercents total chunks =
      [0, 0, 2] ++ sinkPercents total chunks ++ [98, 100] := by
  have h := sink_shape ((downloadReports total 0 chunks).map Prod.fst)
    (downloadReports_chain total chunks 0)
    (fun p hp => downloadReports_mem total chunks 0 p hp)
  exact ⟨h.1, h.2, rfl⟩

/-- C8 counterexample: with no declared total size, two chunks
arriving at elapsed times 1000 ms and 6000 ms both produce the percent
20: the download-stage percent remains at one fixed value for the
whole download instead of advancing. -/
theorem c8_counterexample :
    (downloadReports none 0 [(4096, 1000), (4096, 6000)]).map Prod.fst =
      [20, 20] ∧
    ∀ p ∈ (downloadReports none 0 [(4096, 1000), (4096, 6000)]).map Prod.fst,
      ∀ q ∈ (downloadReports none 0 [(4096, 1000), (4096, 6000)]).map Prod.fst,
        p = q := by
  constructor
  · rfl
  · decide

/-- C8 amended: when the transport declares no total size, every
report of the download loop carries the constant percent 20; it is
only the reported ETA that follows the elapsed-time heuristic
max(3, 15 - elapsedSeconds). -/
theorem c8_unknown_size_reports (cum : ℕ) (chunks : List (ℕ × ℕ)) :
    downloadReports none cum chunks =
      chunks.map (fun c => (20, max 3 (15 - c.2 / 1000))) := by
  induction chunks generalizing cum with
  | nil => rfl
  | cons c rest ih =>
    have h1 : downloadReports none cum (c :: rest) =
        (20, max 3 (15 - c.2 / 1000)) :: downloadReports none (cum + c.1) rest := rfl
    rw [h1, ih (cum + c.1), List.map_cons]

/-- C9 counterexample: a stale load (mounted flag already false) still
performs side effects on shared display state: its success
continuation is not a no-op and in particular writes progress 98. -/
theorem c9_counterexample :
    UIAction.setProgress 98 ∈ successContinuation false true true ∧
    successContinuation false true true ≠ [] := by decide

/-- C9 amended: the current-load check guards exactly the viewer
creation: createViewer runs if and only if the load is still mounted
and the container ref is attached, while the stage, progress and
isLoading mutations of the completion continuation run regardless of
the mounted flag, and the progress-update continuation does not
consult the flag at all. -/
theorem c9_stale_guard (m att ol : Bool) (p : ℚ) (s : String) (e : Option ℕ) :
    (UIAction.createViewer ∈ successContinuation m att ol ↔
      m = true ∧ att = true) ∧
    UIAction.setProgress 98 ∈ successContinuation m att ol ∧
    UIAction.setProgress 100 ∈ successContinuation m att ol ∧
    progressContinuation m p s e = progressContinuation true p s e := by
  refine ⟨?_, ?_, ?_, rfl⟩
  · cases m <;> cases att <;> cases ol <;> decide
  · cases m <;> cases att <;> cases ol <;> decide
  · cases m <;> cases att <;> cases ol <;> decide

end TiffViewer
